import Mathlib

/-!
Verification of the vendored inih INI parser (`src/lib/inih/ini.c`,
`src/lib/inih/ini.h`).

The parser is embedded shallowly.  The compile-time `INI_*` configuration
macros of `ini.h` become a `Config` record; the repository builds the library
with the header defaults (`INI_USE_STACK = 1`, so the heap/realloc path of
`ini_parse_stream` is not compiled and is not modelled, `INI_HANDLER_LINENO =
0`, so the handler receives no line number).  Input bytes are modelled as
`Char`s (the source is assumed NUL-free, as for any C string input), and the
concrete source binding modelled is the string reader `ini_reader_string` /
`ini_parse_string`.

The parse state carries, besides the fields of the C code (current section,
remembered key `prev_name`, the single `error` cell holding the first error's
line number, and the caller's state `user` threaded through the handler), two
ghost trace fields used only to state theorems: `events`, the list of handler
invocations in order, and `errLines`, the line number of every line at which
the C code runs one of its `if (!error) error = lineno;` sites (oversized
line discarded, unterminated section header, separator-less line, or handler
returning 0).
-/

/-- Compile-time configuration of `ini.h` (the `INI_*` macros that affect
`ini_parse_stream` when `INI_USE_STACK = 1`). -/
structure Config where
  allow_multiline : Bool
  allow_bom : Bool
  allow_inline_comments : Bool
  stop_on_first_error : Bool
  call_handler_on_new_section : Bool
  allow_no_value : Bool
  max_line : Nat
deriving DecidableEq

/-- The defaults of `ini.h`: `INI_ALLOW_MULTILINE 1`, `INI_ALLOW_BOM 1`,
`INI_ALLOW_INLINE_COMMENTS 1`, `INI_STOP_ON_FIRST_ERROR 0`,
`INI_CALL_HANDLER_ON_NEW_SECTION 0`, `INI_ALLOW_NO_VALUE 0`,
`INI_MAX_LINE 200`. -/
def defaultCfg : Config :=
  ⟨true, true, true, false, false, false, 200⟩

/-- MAX_SECTION of ini.c line 38. -/
def MAX_SECTION : Nat := 50

/-- MAX_NAME of ini.c line 39. -/
def MAX_NAME : Nat := 50

/-- INI_START_COMMENT_PREFIXES default ";#". -/
def INI_START_COMMENT_PREFIXES : List Char := [';', '#']

/-- INI_INLINE_COMMENT_PREFIXES default ";". -/
def INI_INLINE_COMMENT_PREFIXES : List Char := [';']

/-- C `isspace` on the ASCII range: space, \t, \n, vertical tab, form feed,
\r. -/
def ini_isspace (c : Char) : Bool :=
  c = ' ' || c = '\t' || c = '\n' || c = Char.ofNat 11 || c = Char.ofNat 12 || c = '\r'

/-- ini_rstrip (ini.c lines 49-54): strip whitespace chars off the end of the
string. -/
def ini_rstrip (s : List Char) : List Char :=
  (s.reverse.dropWhile ini_isspace).reverse

/-- ini_lskip (ini.c lines 57-62): first non-whitespace position. -/
def ini_lskip (s : List Char) : List Char :=
  s.dropWhile ini_isspace

/-- ini_strncpy0 (ini.c lines 86-94): copy into a `size`-byte buffer,
NUL-terminated, i.e. keep the first `size - 1` characters. -/
def ini_strncpy0 (src : List Char) (size : Nat) : List Char :=
  src.take (size - 1)

/-- The scan loop of ini_find_chars_or_comment when
`INI_ALLOW_INLINE_COMMENTS` is on (ini.c lines 69-75).  Returns the part
before the found position and the rest starting at it; `was_space` is the
"previous character was whitespace" flag.  A char of
`INI_INLINE_COMMENT_PREFIXES` stops the scan only when `was_space` is set. -/
def findAux (chars : Option (List Char)) : Bool → List Char → List Char × List Char
  | _, [] => ([], [])
  | ws, c :: rest =>
    if (match chars with | some cs => cs.contains c | none => false)
        || (ws && INI_INLINE_COMMENT_PREFIXES.contains c) then
      ([], c :: rest)
    else
      let r := findAux chars (ini_isspace c) rest
      (c :: r.1, r.2)

/-- The scan loop of ini_find_chars_or_comment when
`INI_ALLOW_INLINE_COMMENTS` is off (ini.c lines 77-79). -/
def findAuxNC (chars : Option (List Char)) : List Char → List Char × List Char
  | [] => ([], [])
  | c :: rest =>
    if (match chars with | some cs => cs.contains c | none => false) then
      ([], c :: rest)
    else
      let r := findAuxNC chars rest
      (c :: r.1, r.2)

/-- ini_find_chars_or_comment (ini.c lines 67-82): pointer to first char of
`chars` or start of an inline comment, modelled as a split of the string at
that position (second component empty when neither is found).  `was_space`
starts out 0. -/
def ini_find_chars_or_comment (cfg : Config) (s : List Char) (chars : Option (List Char)) :
    List Char × List Char :=
  if cfg.allow_inline_comments then findAux chars false s else findAuxNC chars s

/-- The copy loop of ini_reader_string (ini.c lines 298-305): read up to
`num - 1` characters from the remaining input, stopping after a newline.
Returns the chunk read and the input left. -/
def readStr : Nat → List Char → List Char × List Char
  | 0, src => ([], src)
  | 1, src => ([], src)
  | _ + 2, [] => ([], [])
  | n + 2, c :: rest =>
    if c = '\n' then ([c], rest)
    else
      let r := readStr (n + 1) rest
      (c :: r.1, r.2)

/-- ini_reader_string (ini.c lines 288-311): the fgets-style reader over an
in-memory string.  `none` models a NULL return (end of input, or a buffer too
small to hold anything). -/
def ini_reader_string (num : Nat) (src : List Char) : Option (List Char × List Char) :=
  if src = [] ∨ num < 2 then none else some (readStr num src)

/-- The discard loop of ini_parse_stream (ini.c lines 165-170): when a line
exceeded the buffer, read and drop 15-character chunks until one ends in a
newline or the input is exhausted.  Returns the remaining input and whether
at least one chunk was read; the C code sets `error = lineno` (gated by
`!error`) exactly when at least one chunk was read, which the caller applies.
Structural recursion on a fuel argument; one chunk consumes at least one
character, so the caller's fuel `src.length + 1` never runs out. -/
def abyssConsumeF : Nat → List Char → List Char × Bool
  | 0, src => (src, false)
  | fuel + 1, src =>
    match ini_reader_string 16 src with
    | none => (src, false)
    | some (chunk, rest) =>
      if chunk.getLast? = some '\n' then (rest, true)
      else ((abyssConsumeF fuel rest).1, true)

/-- abyssConsumeF with enough fuel. -/
def abyssConsume (src : List Char) : List Char × Bool :=
  abyssConsumeF (src.length + 1) src

/-- One execution of lines 139-171 of ini_parse_stream with
`INI_USE_STACK = 1`: call the reader with the `INI_MAX_LINE`-byte buffer; if
the buffer was filled without reaching a newline, discard the remainder of
the physical line.  Returns the line chunk, whether the discard loop recorded
this line as an error, and the remaining input; `none` when the reader
returned NULL and the parse loop exits. -/
def readPhysLine (cfg : Config) (src : List Char) : Option (List Char × Bool × List Char) :=
  match ini_reader_string cfg.max_line src with
  | none => none
  | some (chunk, rest) =>
    if chunk.length = cfg.max_line - 1 ∧ chunk.getLast? ≠ some '\n' then
      let r := abyssConsume rest
      some (chunk, r.2, r.1)
    else
      some (chunk, false, rest)

/-- Kind of handler invocation (ghost bookkeeping; the C handler only sees
section/name/value). -/
inductive EKind where
  | keyval
  | cont
  | sectionStart
  | noval
deriving DecidableEq

/-- One handler invocation: the line it happened on (ghost), and the section,
name and value arguments (NULL modelled as `none`). -/
structure Event where
  lineno : Nat
  sect : List Char
  kind : EKind
  name : Option (List Char)
  value : Option (List Char)
deriving DecidableEq

/-- Handler type (`ini_handler` with `INI_HANDLER_LINENO = 0`): gets the
caller state and section/name/value, returns nonzero-for-success and the new
caller state. -/
def Handler (U : Type) : Type :=
  U → List Char → Option (List Char) → Option (List Char) → Bool × U

/-- Parse-session state of ini_parse_stream: `sect` is the `section[50]`
buffer, `prev_name` the `prev_name[50]` buffer, `error` the first-error line
number cell (0 when unset), `user` the caller state threaded through the
handler.  `events` and `errLines` are ghost traces (see the file header). -/
structure PState (U : Type) where
  sect : List Char
  prev_name : List Char
  error : Nat
  user : U
  events : List Event
  errLines : List Nat
deriving DecidableEq

/-- Result of processing one line (ini.c lines 173-251): the new section,
remembered name and caller state, the handler invocations of this line, and
whether one of the line's `if (!error) error = lineno` sites fired (`erred`);
the caller merges `erred` into the gated `error` cell. -/
structure LineOut (U : Type) where
  sect : List Char
  prev_name : List Char
  user : U
  events : List Event
  erred : Bool
deriving DecidableEq

/-- The BOM skip (ini.c lines 175-179): on line 1, with `INI_ALLOW_BOM`, skip
a leading 0xEF 0xBB 0xBF sequence. -/
def bomAdjust (cfg : Config) (lineno : Nat) (line : List Char) : List Char :=
  match line with
  | a :: b :: c :: rest =>
    if cfg.allow_bom = true ∧ lineno = 1 ∧ a = Char.ofNat 0xEF ∧ b = Char.ofNat 0xBB
        ∧ c = Char.ofNat 0xBF then
      rest
    else line
  | _ => line

/-- The trimmed `start` of ini.c line 181: BOM skip, then
`ini_rstrip(ini_lskip(start), line + offset)`. -/
def lineStart (cfg : Config) (lineno : Nat) (line : List Char) : List Char :=
  ini_rstrip (ini_lskip (bomAdjust cfg lineno line))

/-- The test `strchr(INI_START_COMMENT_PREFIXES, *start)` of ini.c line 183:
true for a start-of-line comment, and also for an empty (blank) line, because
`strchr` finds the NUL terminator. -/
def startCommentHit : List Char → Bool
  | [] => true
  | c :: _ => INI_START_COMMENT_PREFIXES.contains c

/-- Processing of one read line, ini.c lines 173-251.  The branches are, in
order: start-of-line comment (and blank line), multi-line continuation,
`[section]` header, and name/value pair. -/
def processLine {U : Type} (cfg : Config) (handler : Handler U) (lineno : Nat)
    (sect prev_name : List Char) (user : U) (line : List Char) : LineOut U :=
  let start := lineStart cfg lineno line
  if startCommentHit start then
    ⟨sect, prev_name, user, [], false⟩
  else if cfg.allow_multiline = true ∧ prev_name ≠ [] ∧ start ≠ []
      ∧ (ini_lskip (bomAdjust cfg lineno line)).length < line.length then
    let value :=
      if cfg.allow_inline_comments then
        ini_rstrip (ini_find_chars_or_comment cfg start none).1
      else start
    let p := handler user sect (some prev_name) (some value)
    ⟨sect, prev_name, p.2, [⟨lineno, sect, EKind.cont, some prev_name, some value⟩], !p.1⟩
  else if start.head? = some '[' then
    let r := ini_find_chars_or_comment cfg (start.drop 1) (some [']'])
    if r.2.head? = some ']' then
      let sect2 := ini_strncpy0 r.1 MAX_SECTION
      if cfg.call_handler_on_new_section then
        let p := handler user sect2 none none
        ⟨sect2, [], p.2, [⟨lineno, sect2, EKind.sectionStart, none, none⟩], !p.1⟩
      else
        ⟨sect2, [], user, [], false⟩
    else
      ⟨sect, prev_name, user, [], true⟩
  else if start ≠ [] then
    let r := ini_find_chars_or_comment cfg start (some ['=', ':'])
    if r.2.head? = some '=' ∨ r.2.head? = some ':' then
      let name := ini_rstrip r.1
      let value0 := r.2.drop 1
      let value1 :=
        if cfg.allow_inline_comments then (ini_find_chars_or_comment cfg value0 none).1
        else value0
      let value :=
        if cfg.allow_inline_comments then ini_rstrip (ini_lskip value1)
        else ini_lskip value1
      let prev2 := ini_strncpy0 name MAX_NAME
      let p := handler user sect (some name) (some value)
      ⟨sect, prev2, p.2, [⟨lineno, sect, EKind.keyval, some name, some value⟩], !p.1⟩
    else if cfg.allow_no_value then
      let name := ini_rstrip r.1
      let p := handler user sect (some name) none
      ⟨sect, prev_name, p.2, [⟨lineno, sect, EKind.noval, some name, none⟩], !p.1⟩
    else
      ⟨sect, prev_name, user, [], true⟩
  else
    ⟨sect, prev_name, user, [], false⟩

/-- Merge one processed line into the parse state: apply the gated first-error
update `if (!error) error = lineno` when the line was discarded as oversized
(`truncFlag`) or one of the line's own error sites fired, and extend the
ghost traces. -/
def stepLine {U : Type} (cfg : Config) (handler : Handler U) (lineno : Nat)
    (st : PState U) (chunk : List Char) (truncFlag : Bool) : PState U :=
  let r := processLine cfg handler lineno st.sect st.prev_name st.user chunk
  let erred := truncFlag || r.erred
  ⟨r.sect, r.prev_name,
   if st.error = 0 ∧ erred = true then lineno else st.error,
   r.user,
   st.events ++ r.events,
   st.errLines ++ (if erred = true then [lineno] else [])⟩

/-- The scan loop of ini_parse_stream (ini.c lines 139-257): read a physical
line, process it, and stop early only under `INI_STOP_ON_FIRST_ERROR`.
Structural recursion on fuel; each iteration consumes at least one input
character, so fuel `src.length + 1` never runs out. -/
def parseLoopF {U : Type} (cfg : Config) (handler : Handler U) :
    Nat → Nat → PState U → List Char → PState U
  | 0, _, st, _ => st
  | fuel + 1, lineno, st, src =>
    match readPhysLine cfg src with
    | none => st
    | some (chunk, truncFlag, rest) =>
      let st2 := stepLine cfg handler (lineno + 1) st chunk truncFlag
      if cfg.stop_on_first_error = true ∧ st2.error ≠ 0 then st2
      else parseLoopF cfg handler fuel (lineno + 1) st2 rest

/-- Initial parse state: empty section and prev_name, error 0. -/
def initState {U : Type} (u0 : U) : PState U :=
  ⟨[], [], 0, u0, [], []⟩

/-- ini_parse_stream over the string reader, i.e. ini_parse_string (ini.c
lines 314-327), instrumented with the ghost traces. -/
def iniParseStream {U : Type} (cfg : Config) (handler : Handler U) (u0 : U)
    (src : List Char) : PState U :=
  parseLoopF cfg handler (src.length + 1) 0 (initState u0) src

/-- ini_parse_string's return value: 0 on success, else the first error's
line number (with `INI_USE_STACK = 1` the -2 out-of-memory path is not
compiled). -/
def ini_parse_string {U : Type} (cfg : Config) (handler : Handler U) (u0 : U)
    (src : List Char) : Nat :=
  (iniParseStream cfg handler u0 src).error

/-- The sequence of physical lines the scan loop sees: each entry is the
line chunk handed to the classification code and whether the discard loop
flagged it as oversized. -/
def physLinesF (cfg : Config) : Nat → List Char → List (List Char × Bool)
  | 0, _ => []
  | fuel + 1, src =>
    match readPhysLine cfg src with
    | none => []
    | some (chunk, f, rest) => (chunk, f) :: physLinesF cfg fuel rest

/-- physLinesF with enough fuel. -/
def physLines (cfg : Config) (src : List Char) : List (List Char × Bool) :=
  physLinesF cfg (src.length + 1) src

/-- The scan loop, re-expressed as a fold over an already-acquired list of
physical lines (proved equal to `parseLoopF` below). -/
def linesFold {U : Type} (cfg : Config) (handler : Handler U) :
    Nat → PState U → List (List Char × Bool) → PState U
  | _, st, [] => st
  | lineno, st, (chunk, f) :: lp =>
    let st2 := stepLine cfg handler (lineno + 1) st chunk f
    if cfg.stop_on_first_error = true ∧ st2.error ≠ 0 then st2
    else linesFold cfg handler (lineno + 1) st2 lp

/-- The always-accepting handler over a unit caller state. -/
def hAccept : Handler Unit := fun u _ _ _ => (true, u)

/-- Section/prev_name evolution of one line: the (section, prev_name) part of
`processLine`, which does not depend on the handler or caller state. -/
def sectStep (cfg : Config) (lineno : Nat) (s p : List Char) (chunk : List Char) :
    List Char × List Char :=
  let r := processLine cfg hAccept lineno s p () chunk
  (r.sect, r.prev_name)

/-- Section/prev_name evolution over a list of lines. -/
def sectMachine (cfg : Config) : Nat → List Char × List Char → List (List Char × Bool) →
    List Char × List Char
  | _, sp, [] => sp
  | lineno, sp, (chunk, _) :: lp =>
    sectMachine cfg (lineno + 1) (sectStep cfg (lineno + 1) sp.1 sp.2 chunk) lp

/-! ### Helper lemmas about the reader and the discard loop -/

theorem readStr_append (n : Nat) (src : List Char) :
    (readStr n src).1 ++ (readStr n src).2 = src := by
  induction src generalizing n with
  | nil =>
    match n with
    | 0 => rfl
    | 1 => rfl
    | _ + 2 => rfl
  | cons c rest ih =>
    match n with
    | 0 => rfl
    | 1 => rfl
    | m + 2 =>
      by_cases hc : c = '\n'
      · simp [readStr, hc]
      · simpa [readStr, hc] using ih (m + 1)

theorem readStr_ne_nil (n : Nat) (src : List Char) (hn : 2 ≤ n) (hs : src ≠ []) :
    (readStr n src).1 ≠ [] := by
  match n, src with
  | 0, _ => omega
  | 1, _ => omega
  | m + 2, [] => exact absurd rfl hs
  | m + 2, c :: rest =>
    by_cases hc : c = '\n' <;> simp [readStr, hc]

theorem ini_reader_string_some {num : Nat} {src : List Char}
    {c r : List Char} (h : ini_reader_string num src = some (c, r)) :
    c ≠ [] ∧ c ++ r = src ∧ r.length < src.length := by
  unfold ini_reader_string at h
  by_cases hcond : src = [] ∨ num < 2
  · simp [hcond] at h
  · simp only [hcond, if_false] at h
    push_neg at hcond
    obtain ⟨hs, hn⟩ := hcond
    have h1 : c = (readStr num src).1 := by simpa using congrArg Prod.fst (Option.some.inj h).symm
    have h2 : r = (readStr num src).2 := by simpa using congrArg Prod.snd (Option.some.inj h).symm
    subst h1; subst h2
    refine ⟨readStr_ne_nil num src (by omega) hs, readStr_append num src, ?_⟩
    have := readStr_append num src
    have hlen : (readStr num src).1.length + (readStr num src).2.length = src.length := by
      rw [← List.length_append, this]
    have hnn := readStr_ne_nil num src (by omega) hs
    have : 0 < (readStr num src).1.length := List.length_pos.mpr hnn
    omega

/-- readStr with no newline among the first `n - 1` characters reads exactly
`n - 1` characters (or the whole input if shorter). -/
theorem readStr_nlfree (a : List Char) (n : Nat)
    (h : ∀ x ∈ a.take (n - 1), x ≠ '\n') :
    readStr n a = (a.take (n - 1), a.drop (n - 1)) := by
  induction a generalizing n with
  | nil =>
    match n with
    | 0 => rfl
    | 1 => rfl
    | _ + 2 => rfl
  | cons c rest ih =>
    match n with
    | 0 => rfl
    | 1 => rfl
    | m + 2 =>
      have hc : c ≠ '\n' := by
        apply h
        simp [List.take_cons]
      have ih2 := ih (m + 1) (by
        intro x hx
        apply h
        simp only [Nat.add_sub_cancel] at hx ⊢
        simp [List.take_cons, hx])
      simp only [readStr, hc, if_false, ih2]
      simp [List.take_cons, List.drop]

/-- readStr hitting a newline within the buffer stops right after it. -/
theorem readStr_nl (a : List Char) (n : Nat) (b : List Char)
    (hlen : a.length + 2 ≤ n) (hnf : ∀ x ∈ a, x ≠ '\n') :
    readStr n (a ++ '\n' :: b) = (a ++ ['\n'], b) := by
  induction a generalizing n with
  | nil =>
    match n with
    | 0 => omega
    | 1 => omega
    | m + 2 => simp [readStr]
  | cons c rest ih =>
    match n with
    | 0 => omega
    | 1 => omega
    | m + 2 =>
      have hc : c ≠ '\n' := hnf c (by simp)
      have ih2 := ih (m + 1) (by simp at hlen ⊢; omega) (fun x hx => hnf x (by simp [hx]))
      simp [readStr, hc, ih2]

/-- The discard loop consumes the rest of the physical line up to and
including its newline, and reports that it ran. -/
theorem abyssConsumeF_nl (fuel : Nat) (a : List Char) (b : List Char)
    (hf : a.length < fuel) (hnf : ∀ x ∈ a, x ≠ '\n') :
    abyssConsumeF fuel (a ++ '\n' :: b) = (b, true) := by
  induction fuel generalizing a with
  | zero => omega
  | succ fuel ih =>
    by_cases hlen : a.length ≤ 14
    · have hrd : ini_reader_string 16 (a ++ '\n' :: b) = some (a ++ ['\n'], b) := by
        unfold ini_reader_string
        have : a ++ '\n' :: b ≠ [] := by simp
        simp only [this, false_or, if_neg, readStr_nl a 16 b (by omega) hnf]
        simp
      simp [abyssConsumeF, hrd]
    · push_neg at hlen
      have htk : ∀ x ∈ (a ++ '\n' :: b).take 15, x ≠ '\n' := by
        intro x hx
        apply hnf
        have h1 : (a ++ '\n' :: b).take 15 = a.take 15 := by
          rw [List.take_append_of_le_length (by omega)]
        rw [h1] at hx
        exact List.mem_of_mem_take hx
      have hrd : ini_reader_string 16 (a ++ '\n' :: b)
          = some ((a ++ '\n' :: b).take 15, (a ++ '\n' :: b).drop 15) := by
        unfold ini_reader_string
        have hne : a ++ '\n' :: b ≠ [] := by simp
        rw [readStr_nlfree _ 16 (by simpa using htk)]
        simp [hne]
      have htake : (a ++ '\n' :: b).take 15 = a.take 15 :=
        List.take_append_of_le_length (by omega)
      have hdrop : (a ++ '\n' :: b).drop 15 = a.drop 15 ++ '\n' :: b :=
        List.drop_append_of_le_length (by omega)
      have hlast : (a.take 15).getLast? ≠ some '\n' := by
        intro hl
        exact hnf _ (List.mem_of_mem_take (List.mem_of_mem_getLast? hl)) rfl
      have ih2 := ih (a.drop 15) (by simp; omega)
        (fun x hx => hnf x (List.mem_of_mem_drop hx))
      simp [abyssConsumeF, hrd, htake, hdrop, hlast, ih2]

/-- The discard loop at end of input (no newline before EOF): everything is
consumed, and it still reports that it ran as long as anything was left. -/
theorem abyssConsumeF_eof (fuel : Nat) (a : List Char)
    (hf : a.length < fuel) (hne : a ≠ []) (hnf : ∀ x ∈ a, x ≠ '\n') :
    abyssConsumeF fuel a = ([], true) := by
  induction fuel generalizing a with
  | zero => omega
  | succ fuel ih =>
    have htk : ∀ x ∈ a.take 15, x ≠ '\n' := fun x hx => hnf x (List.mem_of_mem_take hx)
    have hrd : ini_reader_string 16 a = some (a.take 15, a.drop 15) := by
      unfold ini_reader_string
      rw [readStr_nlfree _ 16 (by simpa using htk)]
      simp [hne]
    have hlast : (a.take 15).getLast? ≠ some '\n' := by
      intro hl
      exact hnf _ (List.mem_of_mem_take (List.mem_of_mem_getLast? hl)) rfl
    by_cases hlen : a.length ≤ 15
    · have htake : a.take 15 = a := List.take_of_length_le hlen
      have hdrop : a.drop 15 = [] := List.drop_eq_nil_of_le hlen
      rw [htake] at hlast
      have htail : ∀ f2, (abyssConsumeF f2 ([] : List Char)).1 = [] := by
        intro f2
        match f2 with
        | 0 => rfl
        | f + 1 => simp [abyssConsumeF, ini_reader_string]
      simp [abyssConsumeF, hrd, htake, hdrop, hlast, htail]
    · push_neg at hlen
      have ih2 := ih (a.drop 15) (by simp; omega) (by simp; omega)
        (fun x hx => hnf x (List.mem_of_mem_drop hx))
      simp [abyssConsumeF, hrd, hlast, ih2]

/-! ### The scan loop as a fold over the acquired physical lines -/

theorem parseLoopF_eq_linesFold {U : Type} (cfg : Config) (h : Handler U)
    (fuel : Nat) (lineno : Nat) (st : PState U) (src : List Char) :
    parseLoopF cfg h fuel lineno st src = linesFold cfg h lineno st (physLinesF cfg fuel src) := by
  induction fuel generalizing lineno st src with
  | zero => rfl
  | succ fuel ih =>
    simp only [parseLoopF, physLinesF]
    cases hr : readPhysLine cfg src with
    | none => rfl
    | some t =>
      obtain ⟨chunk, f, rest⟩ := t
      simp only [linesFold]
      split
      · rfl
      · exact ih (lineno + 1) _ rest

theorem iniParseStream_eq_linesFold {U : Type} (cfg : Config) (h : Handler U)
    (u0 : U) (src : List Char) :
    iniParseStream cfg h u0 src = linesFold cfg h 0 (initState u0) (physLines cfg src) :=
  parseLoopF_eq_linesFold cfg h (src.length + 1) 0 (initState u0) src

/-- The section, prev_name and event-trace parts of one processed line do not
depend on the handler or on the caller state. -/
theorem processLine_hAccept {U : Type} (cfg : Config) (h : Handler U) (lineno : Nat)
    (s p : List Char) (u : U) (chunk : List Char) :
    (processLine cfg h lineno s p u chunk).sect
        = (processLine cfg hAccept lineno s p () chunk).sect
    ∧ (processLine cfg h lineno s p u chunk).prev_name
        = (processLine cfg hAccept lineno s p () chunk).prev_name
    ∧ (processLine cfg h lineno s p u chunk).events
        = (processLine cfg hAccept lineno s p () chunk).events := by
  unfold processLine
  dsimp only
  repeat' split
  all_goals exact ⟨rfl, rfl, rfl⟩

/-- With `INI_STOP_ON_FIRST_ERROR` off, one line of the scan fold never exits
the loop early. -/
theorem linesFold_cons_nostop {U : Type} (cfg : Config) (h : Handler U)
    (hstop : cfg.stop_on_first_error = false) (n : Nat) (st : PState U)
    (chunk : List Char) (f : Bool) (lp : List (List Char × Bool)) :
    linesFold cfg h n st ((chunk, f) :: lp)
      = linesFold cfg h (n + 1) (stepLine cfg h (n + 1) st chunk f) lp := by
  simp only [linesFold]
  rw [if_neg]
  rw [hstop]
  simp

/-- With `INI_STOP_ON_FIRST_ERROR` off, the scan fold from any state equals
the fold from the state with cleared error cell and traces: traces accumulate
by appending, a nonzero incoming error is never overwritten, and the rest of
the state does not depend on the incoming error or traces. -/
theorem linesFold_reset {U : Type} (cfg : Config) (h : Handler U)
    (hstop : cfg.stop_on_first_error = false) (lp : List (List Char × Bool))
    (n : Nat) (s p : List Char) (e0 : Nat) (u : U) (evs : List Event) (errs : List Nat) :
    linesFold cfg h n ⟨s, p, e0, u, evs, errs⟩ lp
      = ⟨(linesFold cfg h n ⟨s, p, 0, u, [], []⟩ lp).sect,
         (linesFold cfg h n ⟨s, p, 0, u, [], []⟩ lp).prev_name,
         (if e0 = 0 then (linesFold cfg h n ⟨s, p, 0, u, [], []⟩ lp).error else e0),
         (linesFold cfg h n ⟨s, p, 0, u, [], []⟩ lp).user,
         evs ++ (linesFold cfg h n ⟨s, p, 0, u, [], []⟩ lp).events,
         errs ++ (linesFold cfg h n ⟨s, p, 0, u, [], []⟩ lp).errLines⟩ := by
  induction lp generalizing n s p e0 u evs errs with
  | nil =>
    by_cases he : e0 = 0 <;> simp [linesFold, he]
  | cons hd tl ih =>
    obtain ⟨chunk, f⟩ := hd
    rw [linesFold_cons_nostop cfg h hstop, linesFold_cons_nostop cfg h hstop]
    simp only [stepLine]
    dsimp only
    set r := processLine cfg h (n + 1) s p u chunk with hrdef
    set erred := (f || r.erred) with herrdef
    rw [ih (n + 1) r.sect r.prev_name (if e0 = 0 ∧ erred = true then n + 1 else e0) r.user
        (evs ++ r.events) (errs ++ if erred = true then [n + 1] else [])]
    rw [ih (n + 1) r.sect r.prev_name (if True ∧ erred = true then n + 1 else 0) r.user
        ([] ++ r.events) ([] ++ if erred = true then [n + 1] else [])]
    by_cases he : e0 = 0 <;> by_cases herr : erred = true <;>
      simp [he, herr, List.append_assoc]

/-- The error cell always holds the first entry of the ghost error-line trace
(0 when there is none): the invariant behind the "first error line number"
result value. -/
theorem linesFold_error_head {U : Type} (cfg : Config) (h : Handler U)
    (hstop : cfg.stop_on_first_error = false) (lp : List (List Char × Bool)) :
    ∀ (n : Nat) (st : PState U),
      st.error = st.errLines.head?.getD 0 → (∀ x ∈ st.errLines, x ≠ 0) →
      (linesFold cfg h n st lp).error = (linesFold cfg h n st lp).errLines.head?.getD 0
      ∧ (∀ x ∈ (linesFold cfg h n st lp).errLines, x ≠ 0) := by
  induction lp with
  | nil => exact fun n st h1 h2 => ⟨h1, h2⟩
  | cons hd tl ih =>
    intro n st h1 h2
    obtain ⟨chunk, f⟩ := hd
    rw [linesFold_cons_nostop cfg h hstop]
    apply ih
    · simp only [stepLine]
      by_cases herr : (f || (processLine cfg h (n + 1) st.sect st.prev_name st.user chunk).erred)
          = true
      · by_cases he : st.error = 0
        · have hnil : st.errLines = [] := by
            cases herrl : st.errLines with
            | nil => rfl
            | cons a l =>
              exfalso
              apply h2 a (by rw [herrl]; exact List.mem_cons_self a l)
              rw [he, herrl] at h1
              simpa using h1.symm
          simp [he, herr, hnil]
        · have hne : st.errLines ≠ [] := by
            intro hx
            rw [hx] at h1
            simp at h1
            exact he h1
          rw [if_neg (by intro hx; exact he hx.1), if_pos herr]
          rw [List.head?_append_of_ne_nil _ hne]
          exact h1
      · simp only [herr, Bool.false_eq_true, and_false, if_false, List.append_nil]
        simpa using h1
    · intro x hx
      simp only [stepLine] at hx
      rcases List.mem_append.mp hx with hx1 | hx2
      · exact h2 x hx1
      · rcases Decidable.em ((f || (processLine cfg h (n + 1) st.sect st.prev_name st.user chunk).erred) = true) with he | he
        · rw [if_pos he] at hx2
          simp at hx2
          omega
        · rw [if_neg he] at hx2
          simp at hx2

/-! ### Claim C1 -/

/-- C1: with stop-on-first-error disabled (the default), `ini_parse_stream`
over the string reader returns 0 when no line is malformed and no callback is
rejected (the ghost trace `errLines` is then empty), and otherwise returns
the line number of the first line at which a malformed line, an oversized
line, or a rejected callback occurred — the head of the chronological trace
of error lines.  Moreover a nonzero recorded error is never overwritten by a
later error's line number, and the emitted events do not depend on the
recorded error at all: parsing continues through all remaining lines. -/
theorem inih_C1 {U : Type} (cfg : Config) (h : Handler U) (u0 : U) (src : List Char)
    (hstop : cfg.stop_on_first_error = false) :
    (iniParseStream cfg h u0 src).error
        = (iniParseStream cfg h u0 src).errLines.head?.getD 0
    ∧ (∀ (n : Nat) (st : PState U) (lp : List (List Char × Bool)),
        st.error ≠ 0 → (linesFold cfg h n st lp).error = st.error)
    ∧ (∀ (n : Nat) (st : PState U) (e : Nat) (lp : List (List Char × Bool)),
        (linesFold cfg h n { st with error := e } lp).events
          = (linesFold cfg h n st lp).events) := by
  refine ⟨?_, ?_, ?_⟩
  · rw [iniParseStream_eq_linesFold]
    exact (linesFold_error_head cfg h hstop (physLines cfg src) 0 (initState u0)
      (by simp [initState]) (by simp [initState])).1
  · intro n st lp he
    obtain ⟨s, p, e0, u, evs, errs⟩ := st
    rw [linesFold_reset cfg h hstop]
    simpa using fun hx => absurd hx (by simpa using he)
  · intro n st e lp
    obtain ⟨s, p, e0, u, evs, errs⟩ := st
    show (linesFold cfg h n ⟨s, p, e, u, evs, errs⟩ lp).events = _
    rw [linesFold_reset cfg h hstop lp n s p e, linesFold_reset cfg h hstop lp n s p e0]

/-- Witness for C1 at a concrete input: line 2 is separator-less, line 3 an
unterminated header; the result is 2, the head of the error-line trace. -/
theorem inih_C1_wit :
    defaultCfg.stop_on_first_error = false
    ∧ (iniParseStream defaultCfg hAccept () ("good=1\nbad\n[x\nalso=2\n".toList)).error
        = (iniParseStream defaultCfg hAccept () ("good=1\nbad\n[x\nalso=2\n".toList)).errLines.head?.getD 0 :=
  ⟨rfl, (inih_C1 defaultCfg hAccept () ("good=1\nbad\n[x\nalso=2\n".toList) rfl).1⟩

/-! ### Claim C4 -/

/-- C4: a physical line longer than the configured maximum (`INI_MAX_LINE`)
is truncated to the `max_line - 1` characters the buffer can hold; the
remainder of the physical line is read and discarded up to and including the
next newline (or to end of input), the line is flagged as an error — merged
into the error cell only when no earlier error is recorded — and the scan
loop continues with the following lines. -/
theorem inih_C4 {U : Type} (cfg : Config) (h : Handler U) (c rest : List Char)
    (h2 : 2 ≤ cfg.max_line) (hnl : '\n' ∉ c) (hlen : cfg.max_line ≤ c.length)
    (hstop : cfg.stop_on_first_error = false) :
    readPhysLine cfg (c ++ '\n' :: rest) = some (c.take (cfg.max_line - 1), true, rest)
    ∧ readPhysLine cfg c = some (c.take (cfg.max_line - 1), true, [])
    ∧ (∀ (n : Nat) (st : PState U) (ch : List Char),
        (stepLine cfg h (n + 1) st ch true).error = if st.error = 0 then n + 1 else st.error)
    ∧ (∀ (n : Nat) (st : PState U) (ch : List Char) (lp : List (List Char × Bool)),
        linesFold cfg h n st ((ch, true) :: lp)
          = linesFold cfg h (n + 1) (stepLine cfg h (n + 1) st ch true) lp) := by
  have hnlc : ∀ x ∈ c, x ≠ '\n' := fun x hx hc => hnl (hc ▸ hx)
  have hk1 : 1 ≤ cfg.max_line - 1 := by omega
  have hkc : cfg.max_line - 1 ≤ c.length := by omega
  have hrdc : ∀ tail : List Char, readStr cfg.max_line (c ++ tail)
      = ((c ++ tail).take (cfg.max_line - 1), (c ++ tail).drop (cfg.max_line - 1)) := by
    intro tail
    apply readStr_nlfree
    intro x hx
    rw [List.take_append_of_le_length hkc] at hx
    exact hnlc x (List.mem_of_mem_take hx)
  have htakec : ∀ tail : List Char, (c ++ tail).take (cfg.max_line - 1) = c.take (cfg.max_line - 1) :=
    fun tail => List.take_append_of_le_length hkc
  have hlenc : (c.take (cfg.max_line - 1)).length = cfg.max_line - 1 := by
    simp [hkc]
  have hlastc : (c.take (cfg.max_line - 1)).getLast? ≠ some '\n' := by
    intro hl
    exact hnlc _ (List.mem_of_mem_take (List.mem_of_mem_getLast? hl)) rfl
  refine ⟨?_, ?_, ?_, ?_⟩
  · have hne : c ++ '\n' :: rest ≠ [] := by simp
    have hrd : ini_reader_string cfg.max_line (c ++ '\n' :: rest)
        = some (c.take (cfg.max_line - 1), c.drop (cfg.max_line - 1) ++ '\n' :: rest) := by
      unfold ini_reader_string
      rw [hrdc ('\n' :: rest), htakec, List.drop_append_of_le_length hkc]
      simp [hne]
      omega
    have habyss : abyssConsume (c.drop (cfg.max_line - 1) ++ '\n' :: rest) = (rest, true) := by
      unfold abyssConsume
      apply abyssConsumeF_nl
      · simp
        omega
      · exact fun x hx => hnlc x (List.mem_of_mem_drop hx)
    unfold readPhysLine
    rw [hrd]
    dsimp only
    rw [if_pos ⟨hlenc, hlastc⟩]
    simp [habyss]
  · have hcne : c ≠ [] := by
      intro hc0
      rw [hc0] at hlen
      simp at hlen
      omega
    have hrd : ini_reader_string cfg.max_line c
        = some (c.take (cfg.max_line - 1), c.drop (cfg.max_line - 1)) := by
      unfold ini_reader_string
      have := hrdc []
      rw [List.append_nil] at this
      rw [this]
      simp [hcne]
      omega
    have habyss : abyssConsume (c.drop (cfg.max_line - 1)) = ([], true) := by
      unfold abyssConsume
      apply abyssConsumeF_eof
      · omega
      · simp
        omega
      · exact fun x hx => hnlc x (List.mem_of_mem_drop hx)
    unfold readPhysLine
    rw [hrd]
    dsimp only
    rw [if_pos ⟨hlenc, hlastc⟩]
    simp [habyss]
  · intro n st ch
    simp only [stepLine]
    by_cases he : st.error = 0 <;> simp [he]
  · intro n st ch lp
    exact linesFold_cons_nostop cfg h hstop n st ch true lp

set_option maxRecDepth 4096 in
/-- Witness for C4: a 250-character line followed by a newline and another
line is truncated to the first 199 characters, flagged, and the rest of the
physical line is discarded while parsing continues at the following line. -/
theorem inih_C4_wit :
    (2 ≤ defaultCfg.max_line ∧ '\n' ∉ List.replicate 250 'a'
      ∧ defaultCfg.max_line ≤ (List.replicate 250 'a').length
      ∧ defaultCfg.stop_on_first_error = false)
    ∧ readPhysLine defaultCfg (List.replicate 250 'a' ++ '\n' :: ("next=1".toList))
        = some ((List.replicate 250 'a').take (defaultCfg.max_line - 1), true, "next=1".toList) :=
  ⟨⟨by decide, by decide, by decide, rfl⟩,
   (inih_C4 defaultCfg hAccept (List.replicate 250 'a') ("next=1".toList)
     (by decide) (by decide) (by decide) rfl).1⟩

/-! ### Claim C5 -/

/-- C5: with continuation mode enabled (the default configuration), parsing
`key=first line` followed by the leading-whitespace line `  second line`
emits exactly two value events, both tagged with key `key`, with values
`first line` and `second line` — for every handler and caller state, since
the emitted arguments are computed from the input alone. -/
theorem inih_C5 {U : Type} (h : Handler U) (u0 : U) :
    (iniParseStream defaultCfg h u0 ("key=first line\n  second line\n".toList)).events.map
        (fun e => (e.kind, e.name, e.value))
      = [(EKind.keyval, some ("key".toList), some ("first line".toList)),
         (EKind.cont, some ("key".toList), some ("second line".toList))] := rfl

/-! ### Claim C6 -/

/-- C6: with inline comments enabled (the default), `key=val ; comment`
yields value `val` (comment and its preceding whitespace stripped) while
`key=val;nospace` yields `val;nospace` unchanged; and in general the scanner
`ini_find_chars_or_comment` treats an inline-comment prefix character as
starting a comment exactly when the `was_space` flag — previous character is
whitespace — is set at that position. -/
theorem inih_C6 {U : Type} (h : Handler U) (u0 : U) :
    ((iniParseStream defaultCfg h u0 ("key=val ; comment".toList)).events.map
        (fun e => (e.name, e.value))
      = [(some ("key".toList), some ("val".toList))])
    ∧ ((iniParseStream defaultCfg h u0 ("key=val;nospace".toList)).events.map
        (fun e => (e.name, e.value))
      = [(some ("key".toList), some ("val;nospace".toList))])
    ∧ (∀ (ws : Bool) (t : List Char),
        findAux none ws (';' :: t)
          = if ws then ([], ';' :: t)
            else (';' :: (findAux none false t).1, (findAux none false t).2)) := by
  refine ⟨rfl, rfl, ?_⟩
  intro ws t
  cases ws <;> simp [findAux, INI_INLINE_COMMENT_PREFIXES, ini_isspace]

/-! ### Helper lemmas about trimming, the BOM skip and the scanner -/

theorem ini_lskip_cons_of_not_space {c : Char} (hc : ini_isspace c = false) (t : List Char) :
    ini_lskip (c :: t) = c :: t := by
  simp [ini_lskip, List.dropWhile_cons, hc]

theorem ini_rstrip_cons_of_not_space {c : Char} (hc : ini_isspace c = false) (t : List Char) :
    ini_rstrip (c :: t) = c :: ini_rstrip t := by
  unfold ini_rstrip
  rw [List.reverse_cons, List.dropWhile_append]
  by_cases he : (t.reverse.dropWhile ini_isspace).isEmpty
  · simp [he, List.dropWhile_cons, hc, List.isEmpty_iff.mp he]
  · simp [he]

theorem bomAdjust_not_bom {cfg : Config} {m : Nat} {line : List Char}
    (hb : line.head? ≠ some (Char.ofNat 0xEF)) : bomAdjust cfg m line = line := by
  unfold bomAdjust
  match line with
  | [] => rfl
  | [a] => rfl
  | [a, b] => rfl
  | a :: b :: c :: rest =>
    dsimp only
    rw [if_neg]
    intro hx
    exact hb (by simp [hx.2.2.1])

/-- The inline-comments scanner runs past a prefix containing no stop
character and no inline-comment prefix character, whatever the incoming
`was_space` flag, and stops at the first stop character. -/
theorem findAux_prefix (cs : List Char) (a : List Char)
    (ha : ∀ c ∈ a, cs.contains c = false ∧ c ≠ ';') :
    ∀ (ws : Bool) (d : Char) (t : List Char), cs.contains d = true →
      findAux (some cs) ws (a ++ d :: t) = (a, d :: t) := by
  induction a with
  | nil =>
    intro ws d t hd
    rw [List.nil_append]
    unfold findAux
    dsimp only
    rw [hd]
    simp
  | cons c a ih =>
    intro ws d t hd
    obtain ⟨hc1, hc2⟩ := ha c (by simp)
    have htail : ∀ x ∈ a, cs.contains x = false ∧ x ≠ ';' :=
      fun x hx => ha x (by simp [hx])
    have hsemi : INI_INLINE_COMMENT_PREFIXES.contains c = false := by
      simpa [INI_INLINE_COMMENT_PREFIXES] using hc2
    rw [List.cons_append]
    unfold findAux
    dsimp only
    rw [hc1, hsemi, ih htail (ini_isspace c) d t hd]
    simp

/-- The no-inline-comments scanner runs past a prefix containing no stop
character and stops at the first stop character. -/
theorem findAuxNC_prefix (cs : List Char) (a : List Char)
    (ha : ∀ c ∈ a, cs.contains c = false) :
    ∀ (d : Char) (t : List Char), cs.contains d = true →
      findAuxNC (some cs) (a ++ d :: t) = (a, d :: t) := by
  induction a with
  | nil =>
    intro d t hd
    rw [List.nil_append]
    unfold findAuxNC
    dsimp only
    rw [hd]
    simp
  | cons c a ih =>
    intro d t hd
    have hc := ha c (by simp)
    have htail : ∀ x ∈ a, cs.contains x = false := fun x hx => ha x (by simp [hx])
    rw [List.cons_append]
    unfold findAuxNC
    dsimp only
    rw [hc, ih htail d t hd]
    simp

theorem ini_find_chars_or_comment_prefix (cfg : Config) (cs : List Char) (a : List Char)
    (ha : ∀ c ∈ a, cs.contains c = false ∧ c ≠ ';')
    (d : Char) (t : List Char) (hd : cs.contains d = true) :
    ini_find_chars_or_comment cfg (a ++ d :: t) (some cs) = (a, d :: t) := by
  unfold ini_find_chars_or_comment
  by_cases hic : cfg.allow_inline_comments = true
  · rw [if_pos hic, findAux_prefix cs a ha false d t hd]
  · rw [if_neg hic, findAuxNC_prefix cs a (fun c hc => (ha c hc).1) d t hd]

theorem ini_rstrip_append_singleton {d : Char} (hd : ini_isspace d = false) (xs : List Char) :
    ini_rstrip (xs ++ [d]) = xs ++ [d] := by
  unfold ini_rstrip
  rw [List.reverse_append]
  simp [List.dropWhile_cons, hd]

/-- Value argument of a continuation event (ini.c lines 188-195): with inline
comments enabled the line is truncated at an inline comment and re-stripped,
otherwise it is the trimmed line itself. -/
def contValue (cfg : Config) (m : Nat) (ch : List Char) : List Char :=
  if cfg.allow_inline_comments then
    ini_rstrip (ini_find_chars_or_comment cfg (lineStart cfg m ch) none).1
  else lineStart cfg m ch

/-- Value argument of a key/value event (ini.c lines 224-230) as a function
of the text right of the separator. -/
def kvValue (cfg : Config) (v0 : List Char) : List Char :=
  if cfg.allow_inline_comments then
    ini_rstrip (ini_lskip (ini_find_chars_or_comment cfg v0 none).1)
  else ini_lskip v0

/-- A comment line — or a blank line, which the `strchr` test of ini.c line
183 also catches — leaves the whole parse state unchanged and emits
nothing. -/
theorem processLine_comment {U : Type} (cfg : Config) (h : Handler U) (m : Nat)
    (s p : List Char) (u : U) (ch : List Char)
    (hc : startCommentHit (lineStart cfg m ch) = true) :
    processLine cfg h m s p u ch = ⟨s, p, u, [], false⟩ := by
  unfold processLine
  dsimp only
  rw [if_pos hc]

/-- A non-blank, non-comment line with leading whitespace, while a key is
remembered and multiline is on, is a continuation: it emits one value event
under the remembered key and changes no parse state other than the caller's,
erring exactly when the handler rejects. -/
theorem processLine_cont {U : Type} (cfg : Config) (h : Handler U) (m : Nat)
    (s p : List Char) (u : U) (ch : List Char)
    (hml : cfg.allow_multiline = true) (hp : p ≠ [])
    (hcmt : startCommentHit (lineStart cfg m ch) = false)
    (hlead : (ini_lskip (bomAdjust cfg m ch)).length < ch.length) :
    processLine cfg h m s p u ch
      = ⟨s, p, (h u s (some p) (some (contValue cfg m ch))).2,
         [⟨m, s, EKind.cont, some p, some (contValue cfg m ch)⟩],
         !(h u s (some p) (some (contValue cfg m ch))).1⟩ := by
  have hne : lineStart cfg m ch ≠ [] := by
    intro hx
    rw [hx] at hcmt
    simp [startCommentHit] at hcmt
  unfold processLine
  dsimp only
  rw [if_neg (by simp [hcmt]), if_pos ⟨hml, hp, hne, hlead⟩]
  unfold contValue
  by_cases hic : cfg.allow_inline_comments = true <;> simp [hic]

/-- The trimmed start of a `[name]` header line with a clean name is the line
itself. -/
theorem lineStart_header (cfg : Config) (m : Nat) (foo : List Char) :
    lineStart cfg m ('[' :: (foo ++ [']'])) = '[' :: (foo ++ [']']) := by
  unfold lineStart
  rw [bomAdjust_not_bom (by simp)]
  rw [ini_lskip_cons_of_not_space (by decide)]
  rw [ini_rstrip_cons_of_not_space (by decide)]
  rw [ini_rstrip_append_singleton (by decide)]

/-- A header line `[foo]` with `foo` free of `]` and of the inline-comment
prefix `;` sets the section to `foo` truncated to `MAX_SECTION - 1`
characters and clears the remembered key, in every configuration. -/
theorem processLine_header_parts {U : Type} (cfg : Config) (h : Handler U) (m : Nat)
    (s p : List Char) (u : U) (foo : List Char)
    (hclean : ∀ c ∈ foo, c ≠ ']' ∧ c ≠ ';') :
    (processLine cfg h m s p u ('[' :: (foo ++ [']']))).sect = ini_strncpy0 foo MAX_SECTION
    ∧ (processLine cfg h m s p u ('[' :: (foo ++ [']']))).prev_name = []
    ∧ (cfg.call_handler_on_new_section = false →
        processLine cfg h m s p u ('[' :: (foo ++ [']']))
          = ⟨ini_strncpy0 foo MAX_SECTION, [], u, [], false⟩) := by
  have hfind : ini_find_chars_or_comment cfg (foo ++ [']']) (some [']']) = (foo, [']']) := by
    have := ini_find_chars_or_comment_prefix cfg [']'] foo
      (fun c hc => ⟨by simpa using (hclean c hc).1, (hclean c hc).2⟩) ']' []
      (by decide)
    simpa using this
  have hstep : processLine cfg h m s p u ('[' :: (foo ++ [']']))
      = if cfg.call_handler_on_new_section then
          ⟨ini_strncpy0 foo MAX_SECTION, [],
           (h u (ini_strncpy0 foo MAX_SECTION) none none).2,
           [⟨m, ini_strncpy0 foo MAX_SECTION, EKind.sectionStart, none, none⟩],
           !(h u (ini_strncpy0 foo MAX_SECTION) none none).1⟩
        else ⟨ini_strncpy0 foo MAX_SECTION, [], u, [], false⟩ := by
    unfold processLine
    dsimp only
    rw [lineStart_header]
    rw [if_neg (by simp [startCommentHit, INI_START_COMMENT_PREFIXES])]
    rw [if_neg (by
      intro hx
      have := hx.2.2.2
      rw [bomAdjust_not_bom (by simp),
        ini_lskip_cons_of_not_space (by decide)] at this
      omega)]
    rw [if_pos (by simp)]
    simp only [List.drop_one, List.tail_cons]
    rw [hfind]
    dsimp only
    rw [if_pos (show ([']'] : List Char).head? = some ']' from rfl)]
  rw [hstep]
  by_cases hflag : cfg.call_handler_on_new_section = true
  · rw [if_pos hflag]
    exact ⟨rfl, rfl, fun hx => absurd hflag (by simp [hx])⟩
  · rw [if_neg hflag]
    exact ⟨rfl, rfl, fun _ => rfl⟩

/-- A line whose first character is `[` with no closing `]` found (before an
inline comment or end of line) only flags an error: no event, and the
section and remembered key are unchanged. -/
theorem processLine_unterminated {U : Type} (cfg : Config) (h : Handler U) (m : Nat)
    (s p : List Char) (u : U) (ch : List Char)
    (hb : ch.head? = some '[')
    (hnoclose : (ini_find_chars_or_comment cfg ((lineStart cfg m ch).drop 1)
        (some [']'])).2.head? ≠ some ']') :
    processLine cfg h m s p u ch = ⟨s, p, u, [], true⟩ := by
  cases ch with
  | nil => simp at hb
  | cons a tail =>
    have ha : a = '[' := by simpa using hb
    subst ha
    have hls : lineStart cfg m ('[' :: tail) = '[' :: ini_rstrip tail := by
      unfold lineStart
      rw [bomAdjust_not_bom (by simp), ini_lskip_cons_of_not_space (by decide),
        ini_rstrip_cons_of_not_space (by decide)]
    rw [hls] at hnoclose
    simp only [List.drop_one, List.tail_cons] at hnoclose
    unfold processLine
    dsimp only
    rw [hls]
    rw [if_neg (by simp [startCommentHit, INI_START_COMMENT_PREFIXES])]
    rw [if_neg (by
      intro hx
      have := hx.2.2.2
      rw [bomAdjust_not_bom (by simp), ini_lskip_cons_of_not_space (by decide)] at this
      omega)]
    rw [if_pos (by simp)]
    simp only [List.drop_one, List.tail_cons]
    rw [if_neg hnoclose]

/-- A line whose first non-whitespace character is the separator `=` or `:`,
when it is not taken as a continuation, is a key/value line with the empty
key: the remembered key becomes empty and one key/value event with empty name
is emitted, erring exactly when the handler rejects. -/
theorem processLine_emptykey {U : Type} (cfg : Config) (h : Handler U) (m : Nat)
    (s p : List Char) (u : U) (ch : List Char) (c : Char)
    (hc : (lineStart cfg m ch).head? = some c) (hsep : c = '=' ∨ c = ':')
    (hnocont : ¬(cfg.allow_multiline = true ∧ p ≠ [] ∧ lineStart cfg m ch ≠ []
        ∧ (ini_lskip (bomAdjust cfg m ch)).length < ch.length)) :
    processLine cfg h m s p u ch
      = ⟨s, [], (h u s (some []) (some (kvValue cfg ((lineStart cfg m ch).drop 1)))).2,
         [⟨m, s, EKind.keyval, some [], some (kvValue cfg ((lineStart cfg m ch).drop 1))⟩],
         !(h u s (some []) (some (kvValue cfg ((lineStart cfg m ch).drop 1)))).1⟩ := by
  obtain ⟨t, ht⟩ : ∃ t, lineStart cfg m ch = c :: t := by
    cases hls : lineStart cfg m ch with
    | nil => rw [hls] at hc; exact absurd hc (by simp)
    | cons a t2 =>
      rw [hls] at hc
      exact ⟨t2, by rw [show a = c from by simpa using hc]⟩
  have hfind : ini_find_chars_or_comment cfg (c :: t) (some ['=', ':'])
      = ([], c :: t) := by
    have := ini_find_chars_or_comment_prefix cfg ['=', ':'] [] (by simp) c t
      (by rcases hsep with h1 | h1 <;> subst h1 <;> decide)
    simpa using this
  rw [ht] at hnocont
  unfold processLine
  dsimp only
  rw [ht]
  rw [if_neg (by
    rcases hsep with h1 | h1 <;> subst h1 <;>
      simp [startCommentHit, INI_START_COMMENT_PREFIXES])]
  rw [if_neg hnocont]
  rw [if_neg (by rcases hsep with h1 | h1 <;> subst h1 <;> simp)]
  rw [if_pos (by simp)]
  rw [hfind]
  dsimp only
  rw [if_pos (by rcases hsep with h1 | h1 <;> subst h1 <;> simp)]
  simp only [List.drop_one, List.tail_cons, ht]
  have hrnil : ini_rstrip [] = [] := rfl
  rw [hrnil]
  by_cases hic : cfg.allow_inline_comments = true <;>
    simp [hic, kvValue, ini_strncpy0]

/-! ### Claim C7 -/

/-- C7: a line beginning with `[` but with no closing `]` found before an
inline comment or the end of the line emits no event, leaves the section
(and the remembered key) exactly as they were, and is flagged as an error
that is merged into the error cell only when no earlier error is
recorded. -/
theorem inih_C7 {U : Type} (cfg : Config) (h : Handler U) (m : Nat)
    (s p : List Char) (u : U) (st : PState U) (ch : List Char)
    (hb : ch.head? = some '[')
    (hnoclose : (ini_find_chars_or_comment cfg ((lineStart cfg m ch).drop 1)
        (some [']'])).2.head? ≠ some ']') :
    processLine cfg h m s p u ch = ⟨s, p, u, [], true⟩
    ∧ (stepLine cfg h m st ch false).error = (if st.error = 0 then m else st.error)
    ∧ (stepLine cfg h m st ch false).events = st.events
    ∧ (stepLine cfg h m st ch false).sect = st.sect
    ∧ (stepLine cfg h m st ch false).prev_name = st.prev_name := by
  have h2 := processLine_unterminated cfg h m st.sect st.prev_name st.user ch hb hnoclose
  refine ⟨processLine_unterminated cfg h m s p u ch hb hnoclose, ?_, ?_, ?_, ?_⟩
  · simp [stepLine, h2]
  · simp [stepLine, h2]
  · simp [stepLine, h2]
  · simp [stepLine, h2]

/-- Witness for C7 on the line `[sec`: no event, state unchanged, flagged. -/
theorem inih_C7_wit :
    (("[sec".toList).head? = some '['
      ∧ (ini_find_chars_or_comment defaultCfg ((lineStart defaultCfg 1 ("[sec".toList)).drop 1)
          (some [']'])).2.head? ≠ some ']')
    ∧ processLine defaultCfg hAccept 1 [] [] () ("[sec".toList) = ⟨[], [], (), [], true⟩ :=
  ⟨⟨by decide, by decide⟩,
   (inih_C7 defaultCfg hAccept 1 [] [] () (initState ()) ("[sec".toList)
     (by decide) (by decide)).1⟩

/-! ### Claim C9 -/

/-- All of a list of lines are blank or start-of-line comments (at their
respective line numbers, to account for the first-line BOM skip). -/
def allBlankOrComment (cfg : Config) : Nat → List (List Char) → Bool
  | _, [] => true
  | n, b :: bs => startCommentHit (lineStart cfg (n + 1) b) && allBlankOrComment cfg (n + 1) bs

/-- C9: comment lines and blank lines leave the entire parse state unchanged
— a single such line maps the state to itself, and a whole run of them folds
to the identity — so an indented non-blank line after any number of blank or
comment lines is still emitted as a continuation of the most recent
key/value line's remembered key. -/
theorem inih_C9 {U : Type} (cfg : Config) (h : Handler U)
    (hstop : cfg.stop_on_first_error = false) :
    (∀ (m : Nat) (s p : List Char) (u : U) (ch : List Char),
        startCommentHit (lineStart cfg m ch) = true →
        processLine cfg h m s p u ch = ⟨s, p, u, [], false⟩)
    ∧ (∀ (n : Nat) (st : PState U) (bs : List (List Char)),
        allBlankOrComment cfg n bs = true →
        linesFold cfg h n st (bs.map (fun b => (b, false))) = st)
    ∧ (∀ (m : Nat) (s p : List Char) (u : U) (ch : List Char),
        cfg.allow_multiline = true → p ≠ [] →
        startCommentHit (lineStart cfg m ch) = false →
        (ini_lskip (bomAdjust cfg m ch)).length < ch.length →
        processLine cfg h m s p u ch
          = ⟨s, p, (h u s (some p) (some (contValue cfg m ch))).2,
             [⟨m, s, EKind.cont, some p, some (contValue cfg m ch)⟩],
             !(h u s (some p) (some (contValue cfg m ch))).1⟩) := by
  refine ⟨fun m s p u ch hc => processLine_comment cfg h m s p u ch hc, ?_,
    fun m s p u ch h1 h2 h3 h4 => processLine_cont cfg h m s p u ch h1 h2 h3 h4⟩
  intro n st bs
  induction bs generalizing n st with
  | nil => intro _; rfl
  | cons b bs ih =>
    intro hall
    rw [allBlankOrComment] at hall
    rw [Bool.and_eq_true] at hall
    rw [List.map_cons, linesFold_cons_nostop cfg h hstop]
    have hstepb : stepLine cfg h (n + 1) st b false = st := by
      have hcb := processLine_comment cfg h (n + 1) st.sect st.prev_name st.user b hall.1
      simp [stepLine, hcb]
    rw [hstepb]
    exact ih (n + 1) st hall.2

/-- Witness for C9: two blank/comment lines fold to the identity on a
nontrivial state with a remembered key. -/
theorem inih_C9_wit :
    defaultCfg.stop_on_first_error = false
    ∧ allBlankOrComment defaultCfg 1 ["\n".toList, "; note\n".toList] = true
    ∧ linesFold defaultCfg hAccept 1 ⟨"s".toList, "k".toList, 0, (), [], []⟩
        (["\n".toList, "; note\n".toList].map (fun b => (b, false)))
      = ⟨"s".toList, "k".toList, 0, (), [], []⟩ :=
  ⟨rfl, by decide,
   (inih_C9 defaultCfg hAccept rfl).2.1 1 ⟨"s".toList, "k".toList, 0, (), [], []⟩
     ["\n".toList, "; note\n".toList] (by decide)⟩

/-! ### Claim C10 (corrected) -/

/-- Counterexample to C10 as stated: in the default configuration the line
`  =c` (line 2 of `a=b\n =c`) has `=` as its first non-whitespace character,
yet no key/value event with an empty key is emitted for it — it is taken as a
continuation of the previous key `a` with value `=c` (and no error is
recorded, but not the claimed event). -/
theorem inih_C10_cex :
    (lineStart defaultCfg 2 (" =c".toList)).head? = some '='
    ∧ (physLines defaultCfg ("a=b\n =c".toList)).map Prod.fst
        = ["a=b\n".toList, " =c".toList]
    ∧ (iniParseStream defaultCfg hAccept () ("a=b\n =c".toList)).events.map
        (fun e => (e.kind, e.name, e.value))
      = [(EKind.keyval, some ['a'], some ['b']), (EKind.cont, some ['a'], some ['=', 'c'])]
    ∧ ((iniParseStream defaultCfg hAccept () ("a=b\n =c".toList)).events.filter
        (fun e => e.name = some ([] : List Char))).length = 0 := by
  exact ⟨by decide, by decide, by decide, by decide⟩

/-- C10 amended: for every line whose first non-whitespace character is `=`
or `:` and which is not taken as a multi-line continuation (no remembered
key, or no leading whitespace, or multiline disabled), the parser emits one
key/value event whose key is the empty string and whose value is the trimmed
(and, with inline comments enabled, comment-stripped) right-hand side; the
remembered key becomes empty, the line is not recorded as malformed, and an
error is flagged for it only when the callback rejects the event. -/
theorem inih_C10 {U : Type} (cfg : Config) (h : Handler U) (m : Nat)
    (s p : List Char) (u : U) (ch : List Char) (c : Char)
    (hc : (lineStart cfg m ch).head? = some c) (hsep : c = '=' ∨ c = ':')
    (hnocont : ¬(cfg.allow_multiline = true ∧ p ≠ [] ∧ lineStart cfg m ch ≠ []
        ∧ (ini_lskip (bomAdjust cfg m ch)).length < ch.length)) :
    processLine cfg h m s p u ch
      = ⟨s, [], (h u s (some []) (some (kvValue cfg ((lineStart cfg m ch).drop 1)))).2,
         [⟨m, s, EKind.keyval, some [], some (kvValue cfg ((lineStart cfg m ch).drop 1))⟩],
         !(h u s (some []) (some (kvValue cfg ((lineStart cfg m ch).drop 1)))).1⟩ :=
  processLine_emptykey cfg h m s p u ch c hc hsep hnocont

/-- Witness for the amended C10 on the line `=value` with no remembered
key: one event with empty key and value `value`, no error. -/
theorem inih_C10_wit :
    (("=value".toList : List Char).head? = some '='
      ∧ (lineStart defaultCfg 1 ("=value".toList)).head? = some '=')
    ∧ processLine defaultCfg hAccept 1 [] [] () ("=value".toList)
      = ⟨[], [], (),
         [⟨1, [], EKind.keyval, some [],
           some (kvValue defaultCfg ((lineStart defaultCfg 1 ("=value".toList)).drop 1))⟩],
         false⟩ :=
  ⟨⟨by decide, by decide⟩,
   inih_C10 defaultCfg hAccept 1 [] [] () ("=value".toList) '='
     (by decide) (Or.inl rfl) (by intro hx; exact hx.2.1 rfl)⟩

/-! ### Claim C8 -/

/-- One processed line preserves the buffer bounds: the section always fits
the 50-byte `section` buffer (49 characters plus NUL) and the remembered key
the 50-byte `prev_name` buffer, and every event of the line carries a section
within bounds, a continuation event also a name within bounds. -/
theorem processLine_bounds {U : Type} (cfg : Config) (h : Handler U) (m : Nat)
    (s p : List Char) (u : U) (ch : List Char)
    (hs : s.length ≤ MAX_SECTION - 1) (hp : p.length ≤ MAX_NAME - 1) :
    (processLine cfg h m s p u ch).sect.length ≤ MAX_SECTION - 1
    ∧ (processLine cfg h m s p u ch).prev_name.length ≤ MAX_NAME - 1
    ∧ ∀ e ∈ (processLine cfg h m s p u ch).events,
        e.sect.length ≤ MAX_SECTION - 1
        ∧ (e.kind = EKind.cont → ∀ nm, e.name = some nm → nm.length ≤ MAX_NAME - 1) := by
  unfold processLine
  dsimp only
  repeat' split
  all_goals refine ⟨?_, ?_, ?_⟩
  all_goals simp_all [ini_strncpy0, MAX_SECTION, MAX_NAME]

/-- The buffer bounds as an invariant of the whole scan fold. -/
theorem linesFold_bounds {U : Type} (cfg : Config) (h : Handler U)
    (lp : List (List Char × Bool)) :
    ∀ (n : Nat) (st : PState U),
      st.sect.length ≤ MAX_SECTION - 1 → st.prev_name.length ≤ MAX_NAME - 1 →
      (∀ e ∈ st.events, e.sect.length ≤ MAX_SECTION - 1
          ∧ (e.kind = EKind.cont → ∀ nm, e.name = some nm → nm.length ≤ MAX_NAME - 1)) →
      (linesFold cfg h n st lp).sect.length ≤ MAX_SECTION - 1
      ∧ (linesFold cfg h n st lp).prev_name.length ≤ MAX_NAME - 1
      ∧ ∀ e ∈ (linesFold cfg h n st lp).events,
          e.sect.length ≤ MAX_SECTION - 1
          ∧ (e.kind = EKind.cont → ∀ nm, e.name = some nm → nm.length ≤ MAX_NAME - 1) := by
  induction lp with
  | nil => exact fun n st h1 h2 h3 => ⟨h1, h2, h3⟩
  | cons hd tl ih =>
    intro n st h1 h2 h3
    obtain ⟨chunk, f⟩ := hd
    have hbounds := processLine_bounds cfg h (n + 1) st.sect st.prev_name st.user chunk h1 h2
    have hst2 : (stepLine cfg h (n + 1) st chunk f).sect.length ≤ MAX_SECTION - 1
        ∧ (stepLine cfg h (n + 1) st chunk f).prev_name.length ≤ MAX_NAME - 1
        ∧ ∀ e ∈ (stepLine cfg h (n + 1) st chunk f).events,
            e.sect.length ≤ MAX_SECTION - 1
            ∧ (e.kind = EKind.cont → ∀ nm, e.name = some nm → nm.length ≤ MAX_NAME - 1) := by
      refine ⟨hbounds.1, hbounds.2.1, ?_⟩
      intro e he
      simp only [stepLine] at he
      rcases List.mem_append.mp he with he1 | he2
      · exact h3 e he1
      · exact hbounds.2.2 e he2
    simp only [linesFold]
    split
    · exact hst2
    · exact ih (n + 1) _ hst2.1 hst2.2.1 hst2.2.2

/-- C8: every event of a parse carries a section of at most
`MAX_SECTION - 1 = 49` characters (the 50-byte buffer, NUL included), every
continuation event a remembered name of at most `MAX_NAME - 1 = 49`
characters, and a well-formed header with an over-long clean name is
silently truncated to its first 49 characters — the line produces no error
and no rejection (with the section callback off, the default). -/
theorem inih_C8 {U : Type} (cfg : Config) (h : Handler U) (u0 : U) (src : List Char) :
    (∀ e ∈ (iniParseStream cfg h u0 src).events,
        e.sect.length ≤ MAX_SECTION - 1
        ∧ (e.kind = EKind.cont → ∀ nm, e.name = some nm → nm.length ≤ MAX_NAME - 1))
    ∧ (∀ (m : Nat) (s p : List Char) (u : U) (foo : List Char),
        (∀ c ∈ foo, c ≠ ']' ∧ c ≠ ';') → cfg.call_handler_on_new_section = false →
        processLine cfg h m s p u ('[' :: (foo ++ [']']))
          = ⟨foo.take (MAX_SECTION - 1), [], u, [], false⟩) := by
  constructor
  · rw [iniParseStream_eq_linesFold]
    exact (linesFold_bounds cfg h (physLines cfg src) 0 (initState u0)
      (by simp [initState]) (by simp [initState]) (by simp [initState])).2.2
  · intro m s p u foo hclean hflag
    exact (processLine_header_parts cfg h m s p u foo hclean).2.2 hflag

/-- Witness for C8: a 60-character section name is silently truncated to its
first 49 characters. -/
theorem inih_C8_wit :
    ((∀ c ∈ List.replicate 60 'z', c ≠ ']' ∧ c ≠ ';')
      ∧ defaultCfg.call_handler_on_new_section = false)
    ∧ processLine defaultCfg hAccept 1 [] [] () ('[' :: (List.replicate 60 'z' ++ [']']))
      = ⟨(List.replicate 60 'z').take (MAX_SECTION - 1), [], (), [], false⟩ :=
  ⟨⟨by decide, rfl⟩,
   (inih_C8 defaultCfg hAccept () []).2 1 [] [] () (List.replicate 60 'z') (by decide) rfl⟩

/-! ### Claim C2 -/

/-- Every event of one processed line carries that line's number, and every
event with a non-NULL name argument (key/value, continuation, key-only)
carries the section current when the line was processed. -/
theorem processLine_events_basic {U : Type} (cfg : Config) (h : Handler U) (m : Nat)
    (s p : List Char) (u : U) (ch : List Char) :
    ∀ e ∈ (processLine cfg h m s p u ch).events,
      e.lineno = m ∧ (e.name ≠ none → e.sect = s) := by
  unfold processLine
  dsimp only
  repeat' split
  all_goals intro e he
  all_goals simp_all

theorem linesFold_events_split {U : Type} (cfg : Config) (h : Handler U)
    (hstop : cfg.stop_on_first_error = false) (lp : List (List Char × Bool))
    (n : Nat) (s p : List Char) (e0 : Nat) (u : U) (evs : List Event) (errs : List Nat) :
    (linesFold cfg h n ⟨s, p, e0, u, evs, errs⟩ lp).events
      = evs ++ (linesFold cfg h n ⟨s, p, 0, u, [], []⟩ lp).events := by
  rw [linesFold_reset cfg h hstop]

/-- Every event with a non-NULL name carries the section computed by the
section/prev-name machine over the lines strictly before the event's line. -/
theorem linesFold_events_sect {U : Type} (cfg : Config) (h : Handler U)
    (hstop : cfg.stop_on_first_error = false) (lp : List (List Char × Bool)) :
    ∀ (n : Nat) (s p : List Char) (e0 : Nat) (u : U),
      ∀ e ∈ (linesFold cfg h n ⟨s, p, e0, u, [], []⟩ lp).events,
        (n < e.lineno ∧ e.lineno ≤ n + lp.length)
        ∧ (e.name ≠ none →
            e.sect = (sectMachine cfg n (s, p) (lp.take (e.lineno - 1 - n))).1) := by
  induction lp with
  | nil =>
    intro n s p e0 u e he
    simp [linesFold] at he
  | cons hd tl ih =>
    intro n s p e0 u e he
    obtain ⟨chunk, f⟩ := hd
    rw [linesFold_cons_nostop cfg h hstop] at he
    simp only [stepLine] at he
    dsimp only at he
    rw [linesFold_events_split cfg h hstop] at he
    rw [List.nil_append] at he
    rcases List.mem_append.mp he with he1 | he2
    · have hb := processLine_events_basic cfg h (n + 1) s p u chunk e he1
      refine ⟨⟨by omega, by simp; omega⟩, ?_⟩
      intro hname
      rw [hb.2 hname, hb.1]
      rw [show n + 1 - 1 - n = 0 from by omega, List.take_zero]
      rfl
    · have hrec := ih (n + 1) (processLine cfg h (n + 1) s p u chunk).sect
        (processLine cfg h (n + 1) s p u chunk).prev_name 0
        (processLine cfg h (n + 1) s p u chunk).user e he2
      obtain ⟨⟨hlo, hhi⟩, hsect⟩ := hrec
      refine ⟨⟨by omega, by simp; omega⟩, ?_⟩
      intro hname
      rw [hsect hname]
      have hk : e.lineno - 1 - n = (e.lineno - 1 - (n + 1)) + 1 := by omega
      rw [hk, List.take_succ_cons]
      have hstepeq : sectStep cfg (n + 1) s p chunk
          = ((processLine cfg h (n + 1) s p u chunk).sect,
             (processLine cfg h (n + 1) s p u chunk).prev_name) := by
        have hha := processLine_hAccept cfg h (n + 1) s p u chunk
        unfold sectStep
        rw [hha.1, hha.2.1]
      show _ = (sectMachine cfg (n + 1) (sectStep cfg (n + 1) s p chunk) _).1
      rw [hstepeq]

/-- No line of the list starts (after trimming) with an opening bracket. -/
def noBracketLines (cfg : Config) : Nat → List (List Char × Bool) → Bool
  | _, [] => true
  | n, (chunk, _) :: lp =>
    decide ((lineStart cfg (n + 1) chunk).head? ≠ some '[')
      && noBracketLines cfg (n + 1) lp

/-- A line not starting with `[` leaves the current section unchanged. -/
theorem sectStep_sect_of_not_bracket (cfg : Config) (m : Nat) (s p : List Char)
    (ch : List Char) (hb : (lineStart cfg m ch).head? ≠ some '[') :
    (sectStep cfg m s p ch).1 = s := by
  unfold sectStep
  dsimp only
  unfold processLine
  dsimp only
  repeat' split
  all_goals simp_all

/-- Over bracket-free lines the machine's section component is constant. -/
theorem sectMachine_sect_of_no_bracket (cfg : Config) :
    ∀ (lp : List (List Char × Bool)) (n : Nat) (sp : List Char × List Char),
      noBracketLines cfg n lp = true → (sectMachine cfg n sp lp).1 = sp.1 := by
  intro lp
  induction lp with
  | nil => intro n sp _; rfl
  | cons hd tl ih =>
    intro n sp hall
    obtain ⟨chunk, f⟩ := hd
    rw [noBracketLines] at hall
    rw [Bool.and_eq_true, decide_eq_true_iff] at hall
    show (sectMachine cfg (n + 1) (sectStep cfg (n + 1) sp.1 sp.2 chunk) tl).1 = sp.1
    rw [ih (n + 1) _ hall.2]
    exact sectStep_sect_of_not_bracket cfg (n + 1) sp.1 sp.2 chunk hall.1

/-- C2: every key/value-style event (non-NULL name) of a parse carries the
section computed from the lines before it — the name of the last well-formed
header among them, truncated to the buffer bound, or the empty initial
section; in particular all such events before any bracket line carry the
empty section, and a clean well-formed header `[foo]` switches the machine's
section to `foo`. -/
theorem inih_C2 {U : Type} (cfg : Config) (h : Handler U) (u0 : U) (src : List Char)
    (hstop : cfg.stop_on_first_error = false) :
    (∀ e ∈ (iniParseStream cfg h u0 src).events, e.name ≠ none →
        e.sect = (sectMachine cfg 0 ([], []) ((physLines cfg src).take (e.lineno - 1))).1)
    ∧ (∀ (n : Nat) (sp : List Char × List Char) (lp : List (List Char × Bool)),
        noBracketLines cfg n lp = true → (sectMachine cfg n sp lp).1 = sp.1)
    ∧ (∀ (m : Nat) (s p foo : List Char),
        (∀ c ∈ foo, c ≠ ']' ∧ c ≠ ';') → foo.length ≤ MAX_SECTION - 1 →
        sectStep cfg m s p ('[' :: (foo ++ [']'])) = (foo, [])) := by
  refine ⟨?_, fun n sp lp hb => sectMachine_sect_of_no_bracket cfg lp n sp hb, ?_⟩
  · rw [iniParseStream_eq_linesFold]
    intro e he hname
    have := (linesFold_events_sect cfg h hstop (physLines cfg src) 0 [] [] 0 u0 e he).2 hname
    simpa using this
  · intro m s p foo hclean hlen
    have hparts := processLine_header_parts cfg hAccept m s p () foo hclean
    unfold sectStep
    dsimp only
    rw [hparts.1, hparts.2.1]
    rw [show ini_strncpy0 foo MAX_SECTION = foo from by
      simp [ini_strncpy0]
      exact hlen]

/-- Witness for C2: in `x=1`, `[foo]`, `y=2` the key/value event of line 3
carries section `foo`, the machine's value over the first two lines. -/
theorem inih_C2_wit :
    (defaultCfg.stop_on_first_error = false
      ∧ (⟨3, "foo".toList, EKind.keyval, some ("y".toList), some ("2".toList)⟩ : Event)
          ∈ (iniParseStream defaultCfg hAccept () ("x=1\n[foo]\ny=2\n".toList)).events
      ∧ (some ("y".toList) : Option (List Char)) ≠ none)
    ∧ (Event.sect ⟨3, "foo".toList, EKind.keyval, some ("y".toList), some ("2".toList)⟩)
        = (sectMachine defaultCfg 0 ([], [])
            ((physLines defaultCfg ("x=1\n[foo]\ny=2\n".toList)).take (3 - 1))).1 :=
  ⟨⟨rfl, by decide, by decide⟩,
   (inih_C2 defaultCfg hAccept () ("x=1\n[foo]\ny=2\n".toList) rfl).1
     ⟨3, "foo".toList, EKind.keyval, some ("y".toList), some ("2".toList)⟩
     (by decide) (by decide)⟩

/-! ### Claim C3 -/

/-- A line is non-blank, non-comment and well-formed: a continuation, a
header with closing bracket, or a line with a `=`/`:` separator (or any
non-separator line when key-without-value is enabled).  `p` is the remembered
key in force when the line is reached. -/
def lineWf (cfg : Config) (m : Nat) (p : List Char) (ch : List Char) : Bool :=
  let start := lineStart cfg m ch
  if startCommentHit start then false
  else if cfg.allow_multiline = true ∧ p ≠ [] ∧ start ≠ []
      ∧ (ini_lskip (bomAdjust cfg m ch)).length < ch.length then true
  else if start.head? = some '[' then
    decide ((ini_find_chars_or_comment cfg (start.drop 1) (some [']'])).2.head? = some ']')
  else if start ≠ [] then
    decide ((ini_find_chars_or_comment cfg start (some ['=', ':'])).2.head? = some '='
        ∨ (ini_find_chars_or_comment cfg start (some ['=', ':'])).2.head? = some ':')
      || cfg.allow_no_value
  else false

/-- All lines are well-formed, threading the section/prev-name machine to
decide continuation eligibility. -/
def allWf (cfg : Config) : Nat → List Char × List Char → List (List Char × Bool) → Bool
  | _, _, [] => true
  | n, sp, (chunk, _) :: lp =>
    lineWf cfg (n + 1) sp.2 chunk
      && allWf cfg (n + 1) (sectStep cfg (n + 1) sp.1 sp.2 chunk) lp

/-- A well-formed line emits exactly one event when the section-start
callback is enabled. -/
theorem lineWf_events_length {U : Type} (cfg : Config) (h : Handler U) (m : Nat)
    (s p : List Char) (u : U) (ch : List Char)
    (hflag : cfg.call_handler_on_new_section = true)
    (hwf : lineWf cfg m p ch = true) :
    (processLine cfg h m s p u ch).events.length = 1 := by
  by_cases h1 : startCommentHit (lineStart cfg m ch) = true
  · rw [lineWf] at hwf
    rw [if_pos h1] at hwf
    exact absurd hwf (by simp)
  · by_cases h2 : cfg.allow_multiline = true ∧ p ≠ [] ∧ lineStart cfg m ch ≠ []
        ∧ (ini_lskip (bomAdjust cfg m ch)).length < ch.length
    · rw [processLine_cont cfg h m s p u ch h2.1 h2.2.1
        (Bool.not_eq_true _ ▸ h1) h2.2.2.2]
      rfl
    · by_cases h3 : (lineStart cfg m ch).head? = some '['
      · rw [lineWf] at hwf
        rw [if_neg h1, if_neg h2, if_pos h3, decide_eq_true_iff] at hwf
        unfold processLine
        dsimp only
        rw [if_neg h1, if_neg h2, if_pos h3, if_pos hwf, if_pos hflag]
        rfl
      · by_cases h4 : lineStart cfg m ch ≠ []
        · rw [lineWf] at hwf
          rw [if_neg h1, if_neg h2, if_neg h3, if_pos h4] at hwf
          unfold processLine
          dsimp only
          rw [if_neg h1, if_neg h2, if_neg h3, if_pos h4]
          by_cases h5 : (ini_find_chars_or_comment cfg (lineStart cfg m ch)
                (some ['=', ':'])).2.head? = some '='
              ∨ (ini_find_chars_or_comment cfg (lineStart cfg m ch)
                (some ['=', ':'])).2.head? = some ':'
          · rw [if_pos h5]
            rfl
          · rw [if_neg h5]
            have h6 : cfg.allow_no_value = true := by
              rw [Bool.or_eq_true] at hwf
              rcases hwf with hw | hw
              · exact absurd (of_decide_eq_true hw) h5
              · exact hw
            rw [if_pos h6]
            rfl
        · rw [lineWf] at hwf
          rw [if_neg h1, if_neg h2, if_neg h3, if_neg h4] at hwf
          exact absurd hwf (by simp)

/-- Over well-formed lines the scan fold emits exactly one event per line
(section-start callback enabled). -/
theorem linesFold_count {U : Type} (cfg : Config) (h : Handler U)
    (hflag : cfg.call_handler_on_new_section = true)
    (hstop : cfg.stop_on_first_error = false) (lp : List (List Char × Bool)) :
    ∀ (n : Nat) (st : PState U),
      allWf cfg n (st.sect, st.prev_name) lp = true →
      (linesFold cfg h n st lp).events.length = st.events.length + lp.length := by
  induction lp with
  | nil => intro n st _; simp [linesFold]
  | cons hd tl ih =>
    intro n st hall
    obtain ⟨chunk, f⟩ := hd
    rw [allWf] at hall
    rw [Bool.and_eq_true] at hall
    rw [linesFold_cons_nostop cfg h hstop]
    have hha := processLine_hAccept cfg h (n + 1) st.sect st.prev_name st.user chunk
    have hsp : ((stepLine cfg h (n + 1) st chunk f).sect,
        (stepLine cfg h (n + 1) st chunk f).prev_name)
        = sectStep cfg (n + 1) st.sect st.prev_name chunk := by
      unfold sectStep
      dsimp only
      rw [← hha.1, ← hha.2.1]
      rfl
    rw [ih (n + 1) (stepLine cfg h (n + 1) st chunk f) (by rw [hsp]; exact hall.2)]
    have hev : (stepLine cfg h (n + 1) st chunk f).events
        = st.events ++ (processLine cfg h (n + 1) st.sect st.prev_name st.user chunk).events :=
      rfl
    rw [hev, List.length_append,
      lineWf_events_length cfg h (n + 1) st.sect st.prev_name st.user chunk hflag hall.1]
    simp only [List.length_cons]
    omega

/-- C3: with the section-start callback enabled, an input all of whose lines
are non-blank, non-comment and well-formed produces exactly one event per
physical line — the number of key/value-or-section events equals the number
of lines; and a continuation line emits exactly one value event tagged with
the remembered key. -/
theorem inih_C3 {U : Type} (cfg : Config) (h : Handler U) (u0 : U) (src : List Char)
    (hflag : cfg.call_handler_on_new_section = true)
    (hstop : cfg.stop_on_first_error = false)
    (hwf : allWf cfg 0 ([], []) (physLines cfg src) = true) :
    (iniParseStream cfg h u0 src).events.length = (physLines cfg src).length
    ∧ (∀ (m : Nat) (s p : List Char) (u : U) (ch : List Char),
        cfg.allow_multiline = true → p ≠ [] →
        startCommentHit (lineStart cfg m ch) = false →
        (ini_lskip (bomAdjust cfg m ch)).length < ch.length →
        (processLine cfg h m s p u ch).events.map Event.name = [some p]) := by
  constructor
  · rw [iniParseStream_eq_linesFold]
    have := linesFold_count cfg h hflag hstop (physLines cfg src) 0 (initState u0)
      (by exact hwf)
    simpa [initState] using this
  · intro m s p u ch h1 h2 h3 h4
    rw [processLine_cont cfg h m s p u ch h1 h2 h3 h4]
    rfl

/-- Witness for C3: with the section-start callback on, the four lines
`a=1`, `[s]`, `b=2`, `  cc` (a pair, a header, a pair, a continuation) emit
four events. -/
theorem inih_C3_wit :
    ((Config.mk true true true false true false 200).call_handler_on_new_section = true
      ∧ (Config.mk true true true false true false 200).stop_on_first_error = false
      ∧ allWf (Config.mk true true true false true false 200) 0 ([], [])
          (physLines (Config.mk true true true false true false 200)
            ("a=1\n[s]\nb=2\n  cc\n".toList)) = true)
    ∧ (iniParseStream (Config.mk true true true false true false 200) hAccept ()
        ("a=1\n[s]\nb=2\n  cc\n".toList)).events.length
      = (physLines (Config.mk true true true false true false 200)
          ("a=1\n[s]\nb=2\n  cc\n".toList)).length :=
  ⟨⟨rfl, rfl, by decide⟩,
   (inih_C3 (Config.mk true true true false true false 200) hAccept ()
     ("a=1\n[s]\nb=2\n  cc\n".toList) rfl rfl (by decide)).1⟩
